import Mathlib

/-!
Verification development for the gyps-indicus-sdm repository.

The repository couples a Google Earth Engine script
(src/gyps_indicus_gee.js) that does the spatial processing with a Python
notebook (sdm_kde_pipeline.ipynb, described by the README and the design
document) that implements the KDE-based suitability engine.  The notebook
itself is not part of the available sources, so the engine components
(preprocessor, density estimators, scorer, evaluator, state machine) are
modelled from the specification; the Earth Engine pipeline is embedded
from the script, with the documented semantics of the Earth Engine
library calls it makes.
-/

namespace SDM

/-- Modelled from the spec: error taxonomy of §7 — `DegenerateFeatureError`
(zero-variance covariate), `InsufficientSampleError` (too few points),
`ModelNotFittedError` (scoring before fitting), `EmptyClassError`
(evaluation with one empty class), `DimensionMismatchError` (shape
mismatch).  `invalidTransitionError` is modelling glue for state-machine
events fired out of order (the spec declares transitions one-directional
but names no dedicated error for other out-of-order events). -/
inductive SDMError where
  | degenerateFeatureError
  | insufficientSampleError
  | modelNotFittedError
  | emptyClassError
  | dimensionMismatchError
  | invalidTransitionError
deriving DecidableEq, Repr

/-- Feature vectors are ordered sequences of numeric covariates (spec §3).
Covariate values are kept as rationals so that the engine model is
executable. -/
abbrev FeatureVector := List ℚ

/-- Modelled from the spec: squared Euclidean distance between two feature
vectors in the preprocessed feature space, used by the kernel. -/
def sqDist (xs ys : FeatureVector) : ℚ :=
  (List.zipWith (fun a b => (a - b) ^ 2) xs ys).sum

/-- Modelled from the spec: a fitted `DensityModel` owns its bandwidth
parameter and its training sample set (§3, §4.2); it is a plain immutable
value, never mutated after fitting. -/
structure DensityModel where
  bandwidth : ℚ
  train : List FeatureVector
deriving DecidableEq, Repr

/-- Modelled from the spec: kernel contribution of one training point at
squared distance `d2`, with bandwidth `h`.  A smooth rational kernel
`1 / (1 + d2 / (2 h²))` stands in for the Gaussian so that evaluation is
executable; like the Gaussian it is strictly positive, peaks at distance
zero, and decays smoothly toward (but never below) zero far from the
training point (§4.2). -/
def kernelTerm (h d2 : ℚ) : ℚ := 1 / (1 + d2 / (2 * h ^ 2))

/-- Modelled from the spec: evaluation of a kernel density estimate at a
point — the sum of kernel contributions from every training point,
normalized by sample count times the bandwidth-determined volume factor
(§4.2). -/
def density (m : DensityModel) (x : FeatureVector) : ℚ :=
  ((m.train.map fun t => kernelTerm m.bandwidth (sqDist t x)).sum) /
    (m.train.length * m.bandwidth ^ x.length)

/-- Modelled from the spec: the canonical suitability formula
`ratio = presenceDensity / (presenceDensity + backgroundDensity + ε)`
(§4.3), with `ε` a small positive constant preventing division by zero. -/
def suitabilityRatioQ (eps p b : ℚ) : ℚ := p / (p + b + eps)

/-- Modelled from the spec: the fitted Suitability Scorer is the tagged
pair of the two fitted `DensityModel`s plus its `ε` configuration (§4.3,
§9). -/
structure FittedScorer where
  presenceModel : DensityModel
  backgroundModel : DensityModel
  eps : ℚ
deriving DecidableEq, Repr

/-- Modelled from the spec: scoring a feature vector combines the presence
density and the background density at that point via `suitabilityRatioQ`. -/
def scoreAt (s : FittedScorer) (x : FeatureVector) : ℚ :=
  suitabilityRatioQ s.eps (density s.presenceModel x) (density s.backgroundModel x)

/-- Modelled from the spec: a `LabeledSample` pairs a suitability score with
a binary label, presence = `true`, background = `false` (§3, §4.4).
Scores are kept as rationals so that the evaluator is executable. -/
structure LabeledSample where
  score : ℚ
  label : Bool
deriving DecidableEq, Repr

/-- Modelled from the spec: mid-rank credit of a presence score `p` against
a background score `b` — full credit when `p` wins, half credit on a tie
(§4.4). -/
def credit (p b : ℚ) : ℚ := if b < p then 1 else if p = b then 1 / 2 else 0

/-- Scores of the presence-labeled samples, in order. -/
def presenceScores (l : List LabeledSample) : List ℚ :=
  (l.filter fun s => s.label).map fun s => s.score

/-- Scores of the background-labeled samples, in order. -/
def backgroundScores (l : List LabeledSample) : List ℚ :=
  (l.filter fun s => !s.label).map fun s => s.score

/-- Modelled from the spec: AUC as the mid-rank probability that a random
presence point outscores a random background point — average pairwise
`credit` over all presence/background pairs (§4.4). -/
def aucValue (ps bs : List ℚ) : ℚ :=
  ((ps.map fun p => (bs.map fun b => credit p b).sum).sum) /
    (ps.length * bs.length)

/-- Modelled from the spec: the Evaluator — fails with `EmptyClassError`
when either class has zero samples, otherwise returns the AUC (§4.4). -/
def evaluateAUC (l : List LabeledSample) : Except SDMError ℚ :=
  if presenceScores l = [] ∨ backgroundScores l = [] then
    .error .emptyClassError
  else
    .ok (aucValue (presenceScores l) (backgroundScores l))

/-- Minimum of a list of rationals (0 on the empty list). -/
def listMinQ : List ℚ → ℚ
  | [] => 0
  | x :: xs => xs.foldl min x

/-- Maximum of a list of rationals (0 on the empty list). -/
def listMaxQ : List ℚ → ℚ
  | [] => 0
  | x :: xs => xs.foldl max x

/-- Modelled from the spec: min-max normalization of a raw ratio `x` given
the pool minimum `lo` and maximum `hi` (§4.3 normalization step). -/
def minmaxNorm (lo hi x : ℚ) : ℚ := (x - lo) / (hi - lo)

/-- Modelled from the spec: min-max normalization of a whole labeled score
set, using the minimum and maximum of the full score list (§4.3). -/
def normalizeSamples (l : List LabeledSample) : List LabeledSample :=
  l.map fun s =>
    ⟨minmaxNorm (listMinQ (l.map fun t => t.score)) (listMaxQ (l.map fun t => t.score))
       s.score, s.label⟩

/-- Modelled from the spec: the engine states `Unfitted → Preprocessed →
DensitiesFitted → Scored → Evaluated` (§4.5). -/
inductive EngineState where
  | unfitted
  | preprocessed
  | densitiesFitted
  | scored
  | evaluated
deriving DecidableEq, Fintype, Repr

/-- Modelled from the spec: the operations that drive the engine state
machine; `refit` restarts the pipeline. -/
inductive EngineEvent where
  | preprocess
  | fitDensities
  | score
  | evaluate
  | refit
deriving DecidableEq, Fintype, Repr

/-- Position of a state along the one-directional pipeline. -/
def stateRank : EngineState → ℕ
  | .unfitted => 0
  | .preprocessed => 1
  | .densitiesFitted => 2
  | .scored => 3
  | .evaluated => 4

/-- Modelled from the spec: the engine transition function.  Forward
transitions follow the pipeline; `refit` restarts at `Unfitted` from any
state; scoring before both density models exist fails with
`ModelNotFittedError` (§4.3, §4.5). -/
def step : EngineState → EngineEvent → Except SDMError EngineState
  | .unfitted, .preprocess => .ok .preprocessed
  | .preprocessed, .fitDensities => .ok .densitiesFitted
  | .densitiesFitted, .score => .ok .scored
  | .scored, .evaluate => .ok .evaluated
  | _, .refit => .ok .unfitted
  | .unfitted, .score => .error .modelNotFittedError
  | .preprocessed, .score => .error .modelNotFittedError
  | _, _ => .error .invalidTransitionError

/-- Modelled from the spec: prediction is only valid from `DensitiesFitted`
or later (§4.5). -/
def predictionValid : EngineState → Bool
  | .densitiesFitted => true
  | .scored => true
  | .evaluated => true
  | _ => false

instance : DecidableEq (Except SDMError EngineState) := fun x y =>
  match x, y with
  | .ok a, .ok b => decidable_of_iff (a = b) (by simp)
  | .error a, .error b => decidable_of_iff (a = b) (by simp)
  | .ok _, .error _ => .isFalse (by simp)
  | .error _, .ok _ => .isFalse (by simp)

/-- Mean of a list of rationals (0 on the empty list, by `x / 0 = 0`). -/
def meanQ (l : List ℚ) : ℚ := l.sum / l.length

/-- Population variance of a list of rationals. -/
def varianceQ (l : List ℚ) : ℚ :=
  ((l.map fun x => (x - meanQ l) ^ 2).sum) / l.length

/-- Modelled from the spec: fitting the standardizer for one covariate over
the combined presence+background pool — store the fitted mean and variance,
failing with `DegenerateFeatureError` on a zero-variance covariate (§4.1). -/
def fitStandardizer (pool : List ℚ) : Except SDMError (ℚ × ℚ) :=
  if varianceQ pool = 0 then .error .degenerateFeatureError
  else .ok (meanQ pool, varianceQ pool)

/-- Modelled from the spec: the Feature Preprocessor fits one standardizer
per covariate column and fails with `DegenerateFeatureError` when any
covariate has zero variance over the pool (§4.1). -/
def fitPreprocessor (cols : List (List ℚ)) : Except SDMError (List (ℚ × ℚ)) :=
  if ∃ c ∈ cols, varianceQ c = 0 then .error .degenerateFeatureError
  else .ok (cols.map fun c => (meanQ c, varianceQ c))

/-- Modelled from the spec: applying a fitted standardizer — subtract the
stored mean, divide by the standard deviation (the square root of the
stored variance) (§4.1).  Real-valued because the standard deviation of a
rational pool is in general irrational. -/
noncomputable def applyStandardizer (mu v : ℚ) (x : ℝ) : ℝ := (x - mu) / Real.sqrt v

/-- The combined pool after standardization with its own fitted mean and
variance. -/
noncomputable def standardizedPool (pool : List ℚ) : List ℝ :=
  pool.map fun x : ℚ => applyStandardizer (meanQ pool) (varianceQ pool) ((x : ℚ) : ℝ)

/-- Mean of a list of reals. -/
noncomputable def meanR (l : List ℝ) : ℝ := l.sum / l.length

/-- Population variance of a list of reals. -/
noncomputable def varR (l : List ℝ) : ℝ :=
  ((l.map fun x => (x - meanR l) ^ 2).sum) / l.length

/-- Modelled from the spec: density-fit configuration — the configurable
minimum sample count per class, `none` meaning the documented default of
2 × the feature dimensionality (§4.2, §6). -/
structure FitConfig where
  minSamplesPerClass : Option ℕ
deriving DecidableEq, Repr

/-- The effective minimum sample count: the configured value, or the
default `2 * dim` when unset. -/
def effectiveMinSamples (cfg : FitConfig) (dim : ℕ) : ℕ :=
  cfg.minSamplesPerClass.getD (2 * dim)

/-- Modelled from the spec: the sample-count gate of density fitting —
fails with `InsufficientSampleError` exactly when the sample count is
below the effective minimum (§4.2, §8). -/
def fitDensityChecked (cfg : FitConfig) (dim : ℕ) (samples : List (List ℚ)) :
    Except SDMError (List (List ℚ)) :=
  if samples.length < effectiveMinSamples cfg dim then
    .error .insufficientSampleError
  else
    .ok samples

/-- A convolution kernel over a raster with `n` pixels is normalized when
its weights are nonnegative and each output pixel's weights sum to 1 —
the documented semantics of an Earth Engine Gaussian `focal_mean`
(src/gyps_indicus_gee.js lines 166-169, `kernelType: gaussian` with
normalized weights). -/
def NormalizedKernel (n : ℕ) (w : Fin n → Fin n → ℚ) : Prop :=
  (∀ i j, 0 ≤ w i j) ∧ ∀ i, (∑ j, w i j) = 1

/-- One focal-mean smoothing pass: each output pixel is the weighted
combination of the input pixels under the kernel row for that pixel
(src/gyps_indicus_gee.js `focal_mean`). -/
def focalMean (n : ℕ) (w : Fin n → Fin n → ℚ) (r : Fin n → ℚ) : Fin n → ℚ :=
  fun i => ∑ j, w i j * r j

/-- The `reduceToImage` step with the mean reducer: each pixel takes the
mean of the point scores falling in it (src/gyps_indicus_gee.js lines
162-165; a pixel with no points is modelled as 0). -/
def rasterBase (n : ℕ) (pts : Fin n → List ℚ) : Fin n → ℚ :=
  fun i => meanQ (pts i)

/-- The suitability raster of src/gyps_indicus_gee.js lines 162-170:
mean-reduce the point scores, then apply four successive Gaussian
focal-mean smoothing passes (radii 100 km, 75 km, 50 km, 25 km). -/
def suitabilityRasterPixels (n : ℕ) (pts : Fin n → List ℚ)
    (w1 w2 w3 w4 : Fin n → Fin n → ℚ) : Fin n → ℚ :=
  focalMean n w4 (focalMean n w3 (focalMean n w2 (focalMean n w1 (rasterBase n pts))))

/-- A geographic point, as a (longitude, latitude) pair
(src/gyps_indicus_gee.js lines 42-46). -/
abbrev Point := ℚ × ℚ

/-- The fixed background sample size of src/gyps_indicus_gee.js line 129:
`var nBackground = 77000`. -/
def nBackground : ℕ := 77000

/-- The fixed random seed of src/gyps_indicus_gee.js line 135: `seed: 42`. -/
def backgroundSeed : ℕ := 42

/-- The background point generation call of src/gyps_indicus_gee.js lines
132-136: `ee.FeatureCollection.randomPoints` applied to the study-area
geometry with the fixed count and seed.  `randomPoints` abstracts the
Earth Engine generator, a deterministic function of (region, count,
seed). -/
def backgroundPointsRun {G P : Type} (randomPoints : G → ℕ → ℕ → List P)
    (studyArea : G) : List P :=
  randomPoints studyArea nBackground backgroundSeed

/-- A concrete deterministic point generator honoring the `randomPoints`
size contract, used to instantiate the background-generation theorem. -/
def rpSample : Unit → ℕ → ℕ → List Unit := fun _ k _ => List.replicate k ()

/-- An occurrence record with its parsed coordinates
(src/gyps_indicus_gee.js lines 42-46: `decimalLongitude`,
`decimalLatitude`). -/
structure OccRecord where
  decimalLongitude : ℚ
  decimalLatitude : ℚ
deriving DecidableEq, Repr

/-- The point geometry built for one occurrence record
(src/gyps_indicus_gee.js line 45: `ee.Geometry.Point([lon, lat])`). -/
def occPointOf (f : OccRecord) : Point := (f.decimalLongitude, f.decimalLatitude)

/-- `occPoints` of src/gyps_indicus_gee.js lines 42-46: every occurrence
record mapped to its point geometry. -/
def occPointsOf (occData : List OccRecord) : List Point :=
  occData.map occPointOf

/-- `filterBounds` semantics: keep the points whose geometry lies within
the region (src/gyps_indicus_gee.js line 48; the study-area membership
test is abstracted as a Boolean predicate). -/
def filterBounds (inArea : Point → Bool) (pts : List Point) : List Point :=
  pts.filter inArea

/-- `occInRegion` of src/gyps_indicus_gee.js line 48:
`occPoints.filterBounds(studyArea)`. -/
def occInRegionOf (occData : List OccRecord) (inArea : Point → Bool) : List Point :=
  filterBounds inArea (occPointsOf occData)

/-- `sampleRegions` semantics: attach the environmental band values at each
point, dropping points where the image is masked
(src/gyps_indicus_gee.js lines 119-124). -/
def sampleRegions (env : Point → Option (List ℚ)) (pts : List Point) :
    List (Point × List ℚ) :=
  pts.filterMap fun p => (env p).map fun v => (p, v)

/-- `occEnvSample` of src/gyps_indicus_gee.js lines 119-124: the
environmental stack sampled at the occurrence points inside the study
area. -/
def occEnvSampleOf (occData : List OccRecord) (inArea : Point → Bool)
    (env : Point → Option (List ℚ)) : List (Point × List ℚ) :=
  sampleRegions env (occInRegionOf occData inArea)

/-! ## Theorems -/

lemma sqDist_nonneg : ∀ xs ys : FeatureVector, 0 ≤ sqDist xs ys := by
  intro xs
  induction xs with
  | nil => intro ys; simp [sqDist]
  | cons a t ih =>
    intro ys
    cases ys with
    | nil => simp [sqDist]
    | cons b u =>
      have h := ih u
      simp only [sqDist, List.zipWith_cons_cons, List.sum_cons] at *
      exact add_nonneg (sq_nonneg (a - b)) h

lemma kernelTerm_pos (h d2 : ℚ) (hd : 0 ≤ d2) : 0 < kernelTerm h d2 := by
  unfold kernelTerm
  by_cases hh : h = 0
  · simp [hh]
  · have h2 : 0 < 2 * h ^ 2 := by positivity
    have : 0 < 1 + d2 / (2 * h ^ 2) := by positivity
    positivity

lemma density_nonneg (m : DensityModel) (x : FeatureVector)
    (hb : 0 ≤ m.bandwidth) : 0 ≤ density m x := by
  unfold density
  apply div_nonneg
  · apply List.sum_nonneg
    intro q hq
    obtain ⟨t, _, rfl⟩ := List.mem_map.1 hq
    exact (kernelTerm_pos _ _ (sqDist_nonneg t x)).le
  · have : (0:ℚ) ≤ m.bandwidth ^ x.length := pow_nonneg hb _
    positivity

lemma density_pos (m : DensityModel) (x : FeatureVector)
    (ht : m.train ≠ []) (hb : 0 < m.bandwidth) : 0 < density m x := by
  unfold density
  apply div_pos
  · apply List.sum_pos
    · intro q hq
      obtain ⟨t, _, rfl⟩ := List.mem_map.1 hq
      exact kernelTerm_pos _ _ (sqDist_nonneg t x)
    · intro hnil
      exact ht (by simpa using congrArg List.length hnil)
  · have hn : 0 < (m.train.length : ℚ) := by
      have := List.length_pos.2 ht
      exact_mod_cast this
    exact mul_pos hn (pow_pos hb _)

lemma suitabilityRatioQ_mem (eps p b : ℚ) (hp : 0 ≤ p) (hb : 0 ≤ b)
    (he : 0 < eps) : suitabilityRatioQ eps p b ∈ Set.Ico (0:ℚ) 1 := by
  have hden : 0 < p + b + eps := by linarith
  simp only [Set.mem_Ico, suitabilityRatioQ]
  exact ⟨div_nonneg hp hden.le, (div_lt_one hden).2 (by linarith)⟩

/-- Claim C1: at every feature vector where both fitted density models are
evaluated, the Suitability Scorer returns exactly
`presenceDensity / (presenceDensity + backgroundDensity + ε)` with
`ε > 0`, and this raw un-normalized ratio lies in `[0, 1)`. -/
theorem scoreAt_eq_ratio_and_mem_Ico (s : FittedScorer) (x : FeatureVector)
    (hp : 0 ≤ s.presenceModel.bandwidth) (hb : 0 ≤ s.backgroundModel.bandwidth)
    (he : 0 < s.eps) :
    scoreAt s x =
      density s.presenceModel x /
        (density s.presenceModel x + density s.backgroundModel x + s.eps)
    ∧ scoreAt s x ∈ Set.Ico (0:ℚ) 1 :=
  ⟨rfl,
    suitabilityRatioQ_mem s.eps _ _
      (density_nonneg s.presenceModel x hp)
      (density_nonneg s.backgroundModel x hb) he⟩

/-- Witness for C1 at a concrete fitted scorer. -/
theorem scoreAt_eq_ratio_and_mem_Ico_witness :
    scoreAt ⟨⟨1, [[0]]⟩, ⟨1, [[0]]⟩, 1⟩ [0] ∈ Set.Ico (0:ℚ) 1 :=
  (scoreAt_eq_ratio_and_mem_Ico ⟨⟨1, [[0]]⟩, ⟨1, [[0]]⟩, 1⟩ [0]
    zero_le_one zero_le_one one_pos).2

/-- Claim C4: a fitted density model's evaluation returns a nonnegative
scalar, strictly positive (never underflowing below zero) whenever the
model was fitted from a nonempty sample with a positive bandwidth, and
evaluation is pure — two evaluations of the same model at the same input
are equal. -/
theorem density_nonneg_pos_pure (m : DensityModel) (x : FeatureVector)
    (hb : 0 ≤ m.bandwidth) :
    0 ≤ density m x
    ∧ (m.train ≠ [] → 0 < m.bandwidth → 0 < density m x)
    ∧ (∀ y1 y2 : ℚ, y1 = density m x → y2 = density m x → y1 = y2) :=
  ⟨density_nonneg m x hb,
   fun ht hb' => density_pos m x ht hb',
   fun _ _ h1 h2 => h1.trans h2.symm⟩

/-- Witness for C4 at a concrete fitted model. -/
theorem density_nonneg_pos_pure_witness :
    0 ≤ density ⟨1, [[0]]⟩ [0] :=
  (density_nonneg_pos_pure ⟨1, [[0]]⟩ [0] zero_le_one).1

/-- Claim C5: the engine state machine admits only one-directional
transitions apart from `refit`, which restarts at `Unfitted` from every
state; scoring in any state before the density models exist fails with
`ModelNotFittedError`; prediction is valid exactly from `DensitiesFitted`
on. -/
theorem engine_state_machine_spec :
    (∀ s e s', step s e = .ok s' → e = .refit ∨ stateRank s < stateRank s')
    ∧ (∀ s, step s .refit = .ok .unfitted)
    ∧ (∀ s, stateRank s < stateRank .densitiesFitted →
        step s .score = .error .modelNotFittedError)
    ∧ (∀ s, predictionValid s = true ↔
        stateRank .densitiesFitted ≤ stateRank s) := by
  refine ⟨?_, ?_, ?_, ?_⟩ <;> decide

/-- Witness for C5: scoring from the initial state fails with
`ModelNotFittedError`. -/
theorem engine_state_machine_spec_witness :
    step .unfitted .score = .error .modelNotFittedError :=
  engine_state_machine_spec.2.2.1 .unfitted (by decide)

/-- Claim C7: density fitting fails with `InsufficientSampleError` exactly
when the sample count is below the configurable minimum
`minSamplesPerClass`, whose default is twice the feature dimensionality. -/
theorem fitDensity_insufficient_sample_spec (cfg : FitConfig) (dim : ℕ)
    (samples : List (List ℚ)) :
    (fitDensityChecked cfg dim samples = .error .insufficientSampleError ↔
      samples.length < effectiveMinSamples cfg dim)
    ∧ effectiveMinSamples ⟨none⟩ dim = 2 * dim := by
  constructor
  · by_cases h : samples.length < effectiveMinSamples cfg dim
    · simp [fitDensityChecked, h]
    · simp [fitDensityChecked, h]
  · rfl

/-- Witness for C7: one 1-dimensional sample is below the default minimum
of two. -/
theorem fitDensity_insufficient_sample_spec_witness :
    fitDensityChecked ⟨none⟩ 1 [[0]] = .error .insufficientSampleError :=
  (fitDensity_insufficient_sample_spec ⟨none⟩ 1 [[0]]).1.2 (by decide)

lemma credit_nonneg (p b : ℚ) : 0 ≤ credit p b := by
  unfold credit
  split_ifs <;> norm_num

lemma credit_le_one (p b : ℚ) : credit p b ≤ 1 := by
  unfold credit
  split_ifs <;> norm_num

lemma credit_add_swap (p b : ℚ) : credit p b + credit b p = 1 := by
  unfold credit
  rcases lt_trichotomy b p with h | h | h
  · simp [h, lt_asymm h, h.ne]
  · subst h
    norm_num
  · simp [h, lt_asymm h, h.ne]

lemma aucValue_mem (ps bs : List ℚ) (hp : ps ≠ []) (hb : bs ≠ []) :
    aucValue ps bs ∈ Set.Icc (0:ℚ) 1 := by
  have hplen : 0 < (ps.length : ℚ) := by exact_mod_cast List.length_pos.2 hp
  have hblen : 0 < (bs.length : ℚ) := by exact_mod_cast List.length_pos.2 hb
  have hden : 0 < (ps.length : ℚ) * bs.length := mul_pos hplen hblen
  have hinner_nonneg : ∀ p : ℚ, 0 ≤ (bs.map fun b => credit p b).sum := by
    intro p
    apply List.sum_nonneg
    intro q hq
    obtain ⟨b, _, rfl⟩ := List.mem_map.1 hq
    exact credit_nonneg p b
  have hinner_le : ∀ p : ℚ, (bs.map fun b => credit p b).sum ≤ (bs.length : ℚ) := by
    intro p
    have h1 : ∀ q ∈ bs.map fun b => credit p b, q ≤ (1:ℚ) := by
      intro q hq
      obtain ⟨b, _, rfl⟩ := List.mem_map.1 hq
      exact credit_le_one p b
    have h2 := List.sum_le_card_nsmul (bs.map fun b => credit p b) 1 h1
    simpa [nsmul_eq_mul] using h2
  have hnum_nonneg : 0 ≤ (ps.map fun p => (bs.map fun b => credit p b).sum).sum := by
    apply List.sum_nonneg
    intro q hq
    obtain ⟨p, _, rfl⟩ := List.mem_map.1 hq
    exact hinner_nonneg p
  have hnum_le :
      (ps.map fun p => (bs.map fun b => credit p b).sum).sum ≤
        (ps.length : ℚ) * bs.length := by
    have h1 : ∀ q ∈ ps.map fun p => (bs.map fun b => credit p b).sum,
        q ≤ (bs.length : ℚ) := by
      intro q hq
      obtain ⟨p, _, rfl⟩ := List.mem_map.1 hq
      exact hinner_le p
    have h2 := List.sum_le_card_nsmul _ ((bs.length : ℚ)) h1
    simpa [nsmul_eq_mul] using h2
  simp only [Set.mem_Icc, aucValue]
  exact ⟨div_nonneg hnum_nonneg hden.le, (div_le_one hden).2 hnum_le⟩

/-- Claim C2: on a score collection with at least one presence and one
background sample the Evaluator returns the mid-rank pairwise AUC
(ties crediting one half so neither class is favored: the credits of a
pair and its swap always sum to 1), a scalar in `[0, 1]`; with either
class empty it fails with `EmptyClassError` and produces no result. -/
theorem evaluateAUC_spec (l : List LabeledSample) :
    (presenceScores l = [] ∨ backgroundScores l = [] →
      evaluateAUC l = .error .emptyClassError)
    ∧ (presenceScores l ≠ [] → backgroundScores l ≠ [] →
        evaluateAUC l = .ok (aucValue (presenceScores l) (backgroundScores l))
        ∧ aucValue (presenceScores l) (backgroundScores l) ∈ Set.Icc (0:ℚ) 1)
    ∧ (∀ p b : ℚ, credit p b + credit b p = 1) := by
  refine ⟨?_, ?_, credit_add_swap⟩
  · intro h
    rcases h with h | h <;> simp [evaluateAUC, h]
  · intro hp hb
    refine ⟨?_, aucValue_mem _ _ hp hb⟩
    simp [evaluateAUC, hp, hb]

/-- Witness for C2 at a concrete two-sample collection. -/
theorem evaluateAUC_spec_witness :
    evaluateAUC [⟨1, true⟩, ⟨0, false⟩] =
      .ok (aucValue (presenceScores [⟨1, true⟩, ⟨0, false⟩])
            (backgroundScores [⟨1, true⟩, ⟨0, false⟩]))
    ∧ aucValue (presenceScores [⟨1, true⟩, ⟨0, false⟩])
        (backgroundScores [⟨1, true⟩, ⟨0, false⟩]) ∈ Set.Icc (0:ℚ) 1 :=
  (evaluateAUC_spec [⟨1, true⟩, ⟨0, false⟩]).2.1
    (by simp [presenceScores]) (by simp [backgroundScores])

lemma foldl_min_le (xs : List ℚ) (x : ℚ) : xs.foldl min x ≤ x := by
  induction xs generalizing x with
  | nil => simp
  | cons y ys ih =>
    simp only [List.foldl_cons]
    exact le_trans (ih (min x y)) (min_le_left x y)

lemma foldl_min_le_mem : ∀ (xs : List ℚ) (x a : ℚ), a ∈ xs → xs.foldl min x ≤ a := by
  intro xs
  induction xs with
  | nil => intro x a ha; cases ha
  | cons y ys ih =>
    intro x a ha
    simp only [List.foldl_cons]
    rcases List.mem_cons.1 ha with rfl | h
    · exact le_trans (foldl_min_le ys (min x a)) (min_le_right x a)
    · exact ih (min x y) a h

lemma le_foldl_max (xs : List ℚ) (x : ℚ) : x ≤ xs.foldl max x := by
  induction xs generalizing x with
  | nil => simp
  | cons y ys ih =>
    simp only [List.foldl_cons]
    exact le_trans (le_max_left x y) (ih (max x y))

lemma le_foldl_max_mem : ∀ (xs : List ℚ) (x a : ℚ), a ∈ xs → a ≤ xs.foldl max x := by
  intro xs
  induction xs with
  | nil => intro x a ha; cases ha
  | cons y ys ih =>
    intro x a ha
    simp only [List.foldl_cons]
    rcases List.mem_cons.1 ha with rfl | h
    · exact le_trans (le_max_right x a) (le_foldl_max ys (max x a))
    · exact ih (max x y) a h

lemma listMinQ_le_of_mem (l : List ℚ) (a : ℚ) (ha : a ∈ l) : listMinQ l ≤ a := by
  cases l with
  | nil => cases ha
  | cons x xs =>
    rcases List.mem_cons.1 ha with rfl | h
    · exact foldl_min_le xs a
    · exact foldl_min_le_mem xs x a h

lemma le_listMaxQ_of_mem (l : List ℚ) (a : ℚ) (ha : a ∈ l) : a ≤ listMaxQ l := by
  cases l with
  | nil => cases ha
  | cons x xs =>
    rcases List.mem_cons.1 ha with rfl | h
    · exact le_foldl_max xs a
    · exact le_foldl_max_mem xs x a h

lemma minmaxNorm_strictOn (l : List ℚ) (a b : ℚ) (ha : a ∈ l) (hb : b ∈ l) :
    (a < b ↔ minmaxNorm (listMinQ l) (listMaxQ l) a < minmaxNorm (listMinQ l) (listMaxQ l) b)
    ∧ (a = b ↔ minmaxNorm (listMinQ l) (listMaxQ l) a = minmaxNorm (listMinQ l) (listMaxQ l) b) := by
  have hloa : listMinQ l ≤ a := listMinQ_le_of_mem l a ha
  have hlob : listMinQ l ≤ b := listMinQ_le_of_mem l b hb
  have hahi : a ≤ listMaxQ l := le_listMaxQ_of_mem l a ha
  have hbhi : b ≤ listMaxQ l := le_listMaxQ_of_mem l b hb
  by_cases hlohi : listMinQ l < listMaxQ l
  · have hd : 0 < listMaxQ l - listMinQ l := sub_pos.2 hlohi
    constructor
    · simp only [minmaxNorm]
      rw [div_lt_div_iff_of_pos_right hd, sub_lt_sub_iff_right]
    · constructor
      · intro h; rw [h]
      · intro h
        simp only [minmaxNorm] at h
        have h2 := congrArg (fun t => t * (listMaxQ l - listMinQ l)) h
        simp only [div_mul_cancel₀ _ hd.ne'] at h2
        linarith
  · have hab : a = b :=
      le_antisymm (le_trans hahi (le_trans (not_lt.1 hlohi) hlob))
        (le_trans hbhi (le_trans (not_lt.1 hlohi) hloa))
    subst hab
    simp

lemma filter_map_comm {α β : Type} (l : List α) (f : α → β) (p : β → Bool) :
    (l.map f).filter p = (l.filter fun x => p (f x)).map f := by
  induction l with
  | nil => rfl
  | cons a t ih =>
    by_cases h : p (f a) <;> simp [List.filter_cons, h, ih]

lemma presenceScores_normalize (l : List LabeledSample) :
    presenceScores (normalizeSamples l) =
      (presenceScores l).map
        (minmaxNorm (listMinQ (l.map fun t => t.score))
          (listMaxQ (l.map fun t => t.score))) := by
  unfold presenceScores normalizeSamples
  rw [filter_map_comm]
  simp [List.map_map, Function.comp]

lemma backgroundScores_normalize (l : List LabeledSample) :
    backgroundScores (normalizeSamples l) =
      (backgroundScores l).map
        (minmaxNorm (listMinQ (l.map fun t => t.score))
          (listMaxQ (l.map fun t => t.score))) := by
  unfold backgroundScores normalizeSamples
  rw [filter_map_comm]
  simp [List.map_map, Function.comp]

lemma presenceScores_subset (l : List LabeledSample) :
    ∀ a ∈ presenceScores l, a ∈ l.map fun t => t.score := by
  intro a ha
  unfold presenceScores at ha
  obtain ⟨s, hs, rfl⟩ := List.mem_map.1 ha
  exact List.mem_map.2 ⟨s, List.mem_of_mem_filter hs, rfl⟩

lemma backgroundScores_subset (l : List LabeledSample) :
    ∀ a ∈ backgroundScores l, a ∈ l.map fun t => t.score := by
  intro a ha
  unfold backgroundScores at ha
  obtain ⟨s, hs, rfl⟩ := List.mem_map.1 ha
  exact List.mem_map.2 ⟨s, List.mem_of_mem_filter hs, rfl⟩

lemma credit_minmax (l : List ℚ) (p b : ℚ) (hp : p ∈ l) (hb : b ∈ l) :
    credit (minmaxNorm (listMinQ l) (listMaxQ l) p)
      (minmaxNorm (listMinQ l) (listMaxQ l) b) = credit p b := by
  have h1 := minmaxNorm_strictOn l b p hb hp
  have h2 := minmaxNorm_strictOn l p b hp hb
  unfold credit
  by_cases hlt : b < p
  · rw [if_pos hlt, if_pos (h1.1.mp hlt)]
  · rw [if_neg hlt, if_neg (fun c => hlt (h1.1.mpr c))]
    by_cases heq : p = b
    · rw [if_pos heq, if_pos (h2.2.mp heq)]
    · rw [if_neg heq, if_neg (fun c => heq (h2.2.mpr c))]

lemma aucValue_map (ps bs : List ℚ) (f : ℚ → ℚ)
    (hc : ∀ p ∈ ps, ∀ b ∈ bs, credit (f p) (f b) = credit p b) :
    aucValue (ps.map f) (bs.map f) = aucValue ps bs := by
  unfold aucValue
  simp only [List.map_map, Function.comp, List.length_map]
  congr 2
  apply List.map_congr_left
  intro p hp
  simp only [List.map_map, Function.comp]
  exact congrArg List.sum (List.map_congr_left fun b hb => hc p hp b hb)

lemma evaluateAUC_normalize (l : List LabeledSample) :
    evaluateAUC (normalizeSamples l) = evaluateAUC l := by
  have hps := presenceScores_normalize l
  have hbs := backgroundScores_normalize l
  have hc : ∀ p ∈ presenceScores l, ∀ b ∈ backgroundScores l,
      credit
        (minmaxNorm (listMinQ (l.map fun t => t.score))
          (listMaxQ (l.map fun t => t.score)) p)
        (minmaxNorm (listMinQ (l.map fun t => t.score))
          (listMaxQ (l.map fun t => t.score)) b) = credit p b := by
    intro p hp b hb
    exact credit_minmax _ p b (presenceScores_subset l p hp) (backgroundScores_subset l b hb)
  unfold evaluateAUC
  rw [hps, hbs]
  by_cases hp : presenceScores l = []
  · simp [hp]
  · by_cases hb : backgroundScores l = []
    · simp [hb]
    · have h1 : ¬(presenceScores l = [] ∨ backgroundScores l = []) := by
        simp [hp, hb]
      have h2 : ¬((presenceScores l).map
            (minmaxNorm (listMinQ (l.map fun t => t.score))
              (listMaxQ (l.map fun t => t.score))) = [] ∨
          (backgroundScores l).map
            (minmaxNorm (listMinQ (l.map fun t => t.score))
              (listMaxQ (l.map fun t => t.score))) = []) := by
        simp [hp, hb]
      rw [if_neg h2, if_neg h1]
      exact congrArg Except.ok (aucValue_map _ _ _ hc)

/-- Claim C3: min-max normalization preserves the rank ordering of the raw
suitability ratios — strict comparisons and ties between any two scores
of the set are preserved — and consequently the AUC computed on the
normalized scores equals the AUC computed on the raw scores. -/
theorem minmax_preserves_order_and_auc (l : List LabeledSample) :
    (∀ a ∈ l.map fun t => t.score, ∀ b ∈ l.map fun t => t.score,
      (a < b ↔
        minmaxNorm (listMinQ (l.map fun t => t.score))
            (listMaxQ (l.map fun t => t.score)) a <
          minmaxNorm (listMinQ (l.map fun t => t.score))
            (listMaxQ (l.map fun t => t.score)) b)
      ∧ (a = b ↔
        minmaxNorm (listMinQ (l.map fun t => t.score))
            (listMaxQ (l.map fun t => t.score)) a =
          minmaxNorm (listMinQ (l.map fun t => t.score))
            (listMaxQ (l.map fun t => t.score)) b))
    ∧ evaluateAUC (normalizeSamples l) = evaluateAUC l :=
  ⟨fun a ha b hb => minmaxNorm_strictOn _ a b ha hb, evaluateAUC_normalize l⟩

/-- Witness for C3 at a concrete two-sample collection. -/
theorem minmax_preserves_order_and_auc_witness :
    evaluateAUC (normalizeSamples [⟨1, true⟩, ⟨0, false⟩]) =
      evaluateAUC [⟨1, true⟩, ⟨0, false⟩] :=
  (minmax_preserves_order_and_auc [⟨1, true⟩, ⟨0, false⟩]).2

lemma sum_map_sub_const (l : List ℚ) (c : ℚ) :
    (l.map fun x => x - c).sum = l.sum - l.length * c := by
  induction l with
  | nil => simp
  | cons a t ih =>
    simp [ih]
    ring

lemma sum_map_div (l : List ℚ) (g : ℚ → ℝ) (c : ℝ) :
    (l.map fun x => g x / c).sum = (l.map g).sum / c := by
  induction l with
  | nil => simp
  | cons a t ih => simp [ih, add_div]

lemma sum_map_cast (l : List ℚ) (f : ℚ → ℚ) :
    (l.map fun x => ((f x : ℚ) : ℝ)).sum = ((l.map f).sum : ℝ) := by
  induction l with
  | nil => simp
  | cons a t ih => simp [ih]

lemma standardizedPool_length (pool : List ℚ) :
    (standardizedPool pool).length = pool.length := by
  simp [standardizedPool]

lemma pool_ne_nil_of_variance_pos (pool : List ℚ) (hv : 0 < varianceQ pool) :
    pool ≠ [] := by
  rintro rfl
  simp [varianceQ] at hv

lemma meanR_standardizedPool (pool : List ℚ) (hv : 0 < varianceQ pool) :
    meanR (standardizedPool pool) = 0 := by
  have hne : pool ≠ [] := pool_ne_nil_of_variance_pos pool hv
  have hn : (0:ℚ) < pool.length := by exact_mod_cast List.length_pos.2 hne
  have hsum : (standardizedPool pool).sum = 0 := by
    have e1 : standardizedPool pool
        = pool.map fun x =>
            (((x - meanQ pool : ℚ) : ℝ)) / Real.sqrt (varianceQ pool) := by
      unfold standardizedPool applyStandardizer
      apply List.map_congr_left
      intro x hx
      push_cast
      ring
    rw [e1,
      sum_map_div pool (fun x => (((x - meanQ pool : ℚ) : ℝ)))
        (Real.sqrt (varianceQ pool)),
      sum_map_cast pool (fun x => x - meanQ pool), sum_map_sub_const]
    have e2 : pool.sum - pool.length * meanQ pool = 0 := by
      unfold meanQ
      field_simp
    rw [e2]
    simp
  unfold meanR
  rw [hsum]
  simp

lemma varR_standardizedPool (pool : List ℚ) (hv : 0 < varianceQ pool) :
    varR (standardizedPool pool) = 1 := by
  have hmean := meanR_standardizedPool pool hv
  have hne : pool ≠ [] := pool_ne_nil_of_variance_pos pool hv
  have hn : (0:ℚ) < pool.length := by exact_mod_cast List.length_pos.2 hne
  have hnR : (0:ℝ) < (pool.length : ℝ) := by exact_mod_cast List.length_pos.2 hne
  have hvR : (0:ℝ) < (varianceQ pool : ℝ) := by exact_mod_cast hv
  have hsq : Real.sqrt (varianceQ pool) ^ 2 = (varianceQ pool : ℝ) :=
    Real.sq_sqrt hvR.le
  unfold varR
  rw [hmean]
  have e0 : (standardizedPool pool).map (fun x => (x - 0) ^ 2)
      = (standardizedPool pool).map fun x => x ^ 2 := by
    simp
  rw [e0]
  have e1 : (standardizedPool pool).map (fun x => x ^ 2)
      = pool.map fun x =>
          ((((x - meanQ pool) ^ 2 : ℚ) : ℝ)) / (varianceQ pool : ℝ) := by
    unfold standardizedPool applyStandardizer
    rw [List.map_map]
    apply List.map_congr_left
    intro x hx
    simp only [Function.comp]
    rw [div_pow, hsq]
    push_cast
    ring
  rw [e1,
    sum_map_div pool (fun x => ((((x - meanQ pool) ^ 2 : ℚ) : ℝ)))
      ((varianceQ pool : ℝ)),
    sum_map_cast pool (fun x => (x - meanQ pool) ^ 2)]
  have e2 : (pool.map fun x => (x - meanQ pool) ^ 2).sum
      = varianceQ pool * pool.length := by
    unfold varianceQ
    field_simp
  rw [e2, standardizedPool_length]
  push_cast
  field_simp

/-- Claim C6: the Feature Preprocessor standardizes each covariate by
subtracting the mean and dividing by the standard deviation of the
combined presence+background pool — so the standardized pool has mean 0
and variance 1 — and fails with `DegenerateFeatureError` exactly when
some covariate has zero variance over that pool. -/
theorem preprocessor_standardization_spec (cols : List (List ℚ)) (pool : List ℚ) :
    (fitPreprocessor cols = .error .degenerateFeatureError ↔
      ∃ c ∈ cols, varianceQ c = 0)
    ∧ (varianceQ pool ≠ 0 →
        fitStandardizer pool = .ok (meanQ pool, varianceQ pool))
    ∧ (0 < varianceQ pool →
        meanR (standardizedPool pool) = 0 ∧ varR (standardizedPool pool) = 1) := by
  refine ⟨?_, ?_, ?_⟩
  · by_cases h : ∃ c ∈ cols, varianceQ c = 0
    · simp [fitPreprocessor, h]
    · simp [fitPreprocessor, h]
  · intro h
    simp [fitStandardizer, h]
  · intro h
    exact ⟨meanR_standardizedPool pool h, varR_standardizedPool pool h⟩

/-- Witness for C6: a constant covariate is rejected, and a non-degenerate
pool standardizes to mean 0 and variance 1. -/
theorem preprocessor_standardization_spec_witness :
    fitPreprocessor [[0, 0]] = .error .degenerateFeatureError
    ∧ meanR (standardizedPool [0, 2]) = 0 ∧ varR (standardizedPool [0, 2]) = 1 :=
  ⟨(preprocessor_standardization_spec [[0, 0]] [0, 2]).1.2
      ⟨[0, 0], by simp, by norm_num [varianceQ, meanQ]⟩,
    (preprocessor_standardization_spec [[0, 0]] [0, 2]).2.2
      (by norm_num [varianceQ, meanQ])⟩

lemma meanQ_mem_Icc (l : List ℚ) (h : ∀ x ∈ l, x ∈ Set.Icc (0:ℚ) 1) :
    meanQ l ∈ Set.Icc (0:ℚ) 1 := by
  by_cases hl : l = []
  · subst hl
    simp [meanQ, Set.mem_Icc]
  · have hn : (0:ℚ) < l.length := by exact_mod_cast List.length_pos.2 hl
    have hsum0 : 0 ≤ l.sum := List.sum_nonneg fun x hx => (h x hx).1
    have hsum1 : l.sum ≤ (l.length : ℚ) := by
      have h2 := List.sum_le_card_nsmul l 1 fun x hx => (h x hx).2
      simpa [nsmul_eq_mul] using h2
    simp only [Set.mem_Icc, meanQ]
    exact ⟨div_nonneg hsum0 hn.le, (div_le_one hn).2 hsum1⟩

lemma focalMean_mem_Icc (n : ℕ) (w : Fin n → Fin n → ℚ) (r : Fin n → ℚ)
    (hw : NormalizedKernel n w) (hr : ∀ j, r j ∈ Set.Icc (0:ℚ) 1) :
    ∀ i, focalMean n w r i ∈ Set.Icc (0:ℚ) 1 := by
  intro i
  simp only [Set.mem_Icc, focalMean]
  constructor
  · exact Finset.sum_nonneg fun j _ => mul_nonneg (hw.1 i j) (hr j).1
  · calc (∑ j, w i j * r j) ≤ ∑ j, w i j :=
        Finset.sum_le_sum fun j _ => mul_le_of_le_one_right (hw.1 i j) (hr j).2
      _ = 1 := hw.2 i

/-- Claim C8: when every suitability score handed to rasterization lies in
`[0, 1]`, every pixel of the raster built by mean-reducing the point
scores and applying four normalized Gaussian focal-mean smoothing passes
also lies in `[0, 1]`. -/
theorem suitabilityRaster_bounds (n : ℕ) (pts : Fin n → List ℚ)
    (w1 w2 w3 w4 : Fin n → Fin n → ℚ)
    (h1 : NormalizedKernel n w1) (h2 : NormalizedKernel n w2)
    (h3 : NormalizedKernel n w3) (h4 : NormalizedKernel n w4)
    (hscores : ∀ i, ∀ x ∈ pts i, x ∈ Set.Icc (0:ℚ) 1) :
    ∀ i, suitabilityRasterPixels n pts w1 w2 w3 w4 i ∈ Set.Icc (0:ℚ) 1 := by
  have hb : ∀ i, rasterBase n pts i ∈ Set.Icc (0:ℚ) 1 := fun i =>
    meanQ_mem_Icc _ (hscores i)
  have p1 := focalMean_mem_Icc n w1 _ h1 hb
  have p2 := focalMean_mem_Icc n w2 _ h2 p1
  have p3 := focalMean_mem_Icc n w3 _ h3 p2
  exact focalMean_mem_Icc n w4 _ h4 p3

/-- Witness for C8 on a one-pixel raster with the trivial normalized
kernel. -/
theorem suitabilityRaster_bounds_witness :
    suitabilityRasterPixels 1 (fun _ => [1 / 2]) (fun _ _ => 1) (fun _ _ => 1)
      (fun _ _ => 1) (fun _ _ => 1) 0 ∈ Set.Icc (0:ℚ) 1 :=
  suitabilityRaster_bounds 1 (fun _ => [1 / 2]) (fun _ _ => 1) (fun _ _ => 1)
    (fun _ _ => 1) (fun _ _ => 1)
    ⟨fun _ _ => zero_le_one, fun _ => by simp⟩
    ⟨fun _ _ => zero_le_one, fun _ => by simp⟩
    ⟨fun _ _ => zero_le_one, fun _ => by simp⟩
    ⟨fun _ _ => zero_le_one, fun _ => by simp⟩
    (fun _ x hx => by
      simp at hx
      subst hx
      norm_num [Set.mem_Icc]) 0

/-- Claim C9: background point generation is deterministic and fixed in
size — the script requests exactly 77,000 random points within the
study-area geometry with the fixed seed 42, so, the generator being a
deterministic function of (region, count, seed), two runs produce the
identical collection. -/
theorem backgroundPoints_deterministic {G P : Type}
    (randomPoints : G → ℕ → ℕ → List P) (studyArea : G)
    (hlen : ∀ r k s, (randomPoints r k s).length = k) :
    backgroundPointsRun randomPoints studyArea = randomPoints studyArea 77000 42
    ∧ (backgroundPointsRun randomPoints studyArea).length = 77000
    ∧ ∀ run1 run2 : List P,
        run1 = backgroundPointsRun randomPoints studyArea →
        run2 = backgroundPointsRun randomPoints studyArea → run1 = run2 :=
  ⟨rfl, hlen studyArea 77000 42, fun _ _ e1 e2 => e1.trans e2.symm⟩

/-- Witness for C9 with a concrete generator honoring the size contract. -/
theorem backgroundPoints_deterministic_witness :
    (backgroundPointsRun rpSample ()).length = 77000 :=
  (backgroundPoints_deterministic rpSample ()
    (fun _ k _ => List.length_replicate k ())).2.1

/-- Claim C10: `occInRegion` is the subset of the parsed occurrence points
filtered by the study-area bounds — it is contained in `occPoints`, every
point in it lies within the study area, and every feature of the
environmental training sample `occEnvSample` comes from `occInRegion`,
so no occurrence outside the study area contributes. -/
theorem occInRegion_subset_spec (occData : List OccRecord) (inArea : Point → Bool)
    (env : Point → Option (List ℚ)) :
    occInRegionOf occData inArea ⊆ occPointsOf occData
    ∧ (∀ p ∈ occInRegionOf occData inArea, inArea p = true)
    ∧ ∀ q ∈ occEnvSampleOf occData inArea env,
        q.1 ∈ occInRegionOf occData inArea ∧ inArea q.1 = true := by
  refine ⟨?_, ?_, ?_⟩
  · intro p hp
    exact List.mem_of_mem_filter hp
  · intro p hp
    exact (List.mem_filter.1 hp).2
  · intro q hq
    unfold occEnvSampleOf sampleRegions at hq
    obtain ⟨p, hp, hmap⟩ := List.mem_filterMap.1 hq
    rcases he : env p with _ | v
    · rw [he] at hmap
      simp at hmap
    · rw [he] at hmap
      have hpq : (p, v) = q := by simpa using hmap
      subst hpq
      exact ⟨hp, (List.mem_filter.1 hp).2⟩

/-- Witness for C10: a concrete in-area occurrence point is retained in
`occPoints`. -/
theorem occInRegion_subset_spec_witness :
    ((0:ℚ), (0:ℚ)) ∈ occPointsOf [⟨0, 0⟩] :=
  (occInRegion_subset_spec [⟨0, 0⟩] (fun _ => true) (fun _ => none)).1
    (by simp [occInRegionOf, filterBounds, occPointsOf, occPointOf])

end SDM
